import Mathlib

/-!
Verification development for the quick-alias plugin (src/main.js).

Strings are modelled as lists of characters (`Str`).  JavaScript string
operations used by the plugin are embedded explicitly:
 - `String.prototype.toLowerCase` (ASCII fragment) as `lcChar` / `lcStr`;
 - `String.prototype.trim` as `jsTrim`;
 - `new Set(...)` insertion-order deduplication as `dedupFirst`;
 - `Array.prototype.sort()` (lexicographic by code unit) as `sortStrs`.

The alias-merge computation inside `updateFrontmatter` (main.js lines
110-125), the alias extractor `extractAliases` (lines 86-108), the
pipeline `processFile` (lines 54-84), the debounce scheduler (lines 4-10
and 36-44) and the settings lifecycle (lines 127-147, 188-203) are each
embedded below, followed by the theorems about them.
-/

abbrev Str := List Char

/-- Coerce a Lean string literal to the `Str` representation. -/
def chars (s : String) : Str := s.data

/-- Model of JavaScript `toLowerCase` on a single character (ASCII
fragment: code points 65-90 map to 97-122, everything else unchanged). -/
def lcChar (c : Char) : Char :=
  if 65 ≤ c.toNat ∧ c.toNat ≤ 90 then Char.ofNat (c.toNat + 32) else c

/-- Model of JavaScript `toLowerCase` on a string. -/
def lcStr (s : Str) : Str := s.map lcChar

/-- Evaluation of `Char.ofNat` on valid (below the surrogate range) codes. -/
theorem charToNat_ofNat (n : Nat) (h : n < 55296) : (Char.ofNat n).toNat = n := by
  unfold Char.ofNat
  rw [dif_pos (Or.inl h)]
  simp [Char.ofNatAux, Char.toNat, UInt32.toNat]

theorem lcChar_idem (c : Char) : lcChar (lcChar c) = lcChar c := by
  unfold lcChar
  by_cases h : 65 ≤ c.toNat ∧ c.toNat ≤ 90
  · rw [if_pos h]
    have hv : (Char.ofNat (c.toNat + 32)).toNat = c.toNat + 32 :=
      charToNat_ofNat _ (by omega)
    rw [if_neg (by rw [hv]; omega)]
  · rw [if_neg h, if_neg h]

theorem lcStr_idem (s : Str) : lcStr (lcStr s) = lcStr s := by
  unfold lcStr
  rw [List.map_map]
  exact List.map_congr_left (fun c _ => lcChar_idem c)

theorem lcStr_eq_self_of_image (s : Str) : lcStr (lcStr s) = lcStr s :=
  lcStr_idem s

theorem lcChar_ne_newline {c : Char} (h : c ≠ '\n') : lcChar c ≠ '\n' := by
  unfold lcChar
  by_cases hcase : 65 ≤ c.toNat ∧ c.toNat ≤ 90
  · rw [if_pos hcase]
    intro heq
    have hv : (Char.ofNat (c.toNat + 32)).toNat = c.toNat + 32 :=
      charToNat_ofNat _ (by omega)
    rw [heq] at hv
    have h10 : ('\n' : Char).toNat = 10 := by decide
    rw [h10] at hv
    omega
  · rw [if_neg hcase]; exact h

/-- Model of JavaScript `trim`: drop whitespace from both ends. -/
def jsTrim (s : Str) : Str :=
  ((s.dropWhile Char.isWhitespace).reverse.dropWhile Char.isWhitespace).reverse

theorem jsTrim_subset (s : Str) : jsTrim s ⊆ s := by
  intro c hc
  unfold jsTrim at hc
  rw [List.mem_reverse] at hc
  have h1 := List.dropWhile_sublist
    (l := (s.dropWhile Char.isWhitespace).reverse) (p := Char.isWhitespace)
  have h2 : c ∈ (s.dropWhile Char.isWhitespace).reverse := h1.mem hc
  rw [List.mem_reverse] at h2
  exact (List.dropWhile_sublist (l := s) (p := Char.isWhitespace)).mem h2

/-- Insertion-order deduplication: model of building a JavaScript `Set`
from a list and spreading it back into an array (first occurrence kept). -/
def dedupFirst (seen : List Str) : List Str → List Str
  | [] => []
  | a :: rest =>
      if a ∈ seen then dedupFirst seen rest
      else a :: dedupFirst (a :: seen) rest

/-- Model of JavaScript `Array.prototype.sort()` on an array of strings:
lexicographic order on code units. -/
def sortStrs (l : List Str) : List Str := List.insertionSort (· ≤ ·) l

/-- The alias-merge computation performed inside `updateFrontmatter`
(main.js lines 113-119): lower-case the existing aliases, union them with
the incoming aliases via a `Set`, and sort the result.  Note the code
lower-cases only the `existing` side. -/
def mergeAliases (existing incoming : List Str) : List Str :=
  sortStrs (dedupFirst [] (existing.map lcStr ++ incoming))

theorem mem_dedupFirst (l : List Str) :
    ∀ seen x, x ∈ dedupFirst seen l ↔ x ∈ l ∧ x ∉ seen := by
  induction l with
  | nil => intro seen x; simp [dedupFirst]
  | cons a rest ih =>
    intro seen x
    unfold dedupFirst
    by_cases ha : a ∈ seen
    · rw [if_pos ha, ih seen x]
      constructor
      · rintro ⟨hx, hns⟩; exact ⟨List.mem_cons_of_mem a hx, hns⟩
      · rintro ⟨hx, hns⟩
        rcases List.mem_cons.mp hx with heq | hmem
        · exact absurd (heq ▸ ha) hns
        · exact ⟨hmem, hns⟩
    · rw [if_neg ha]
      simp only [List.mem_cons, ih (a :: seen) x]
      constructor
      · rintro (rfl | ⟨hx, hns⟩)
        · exact ⟨Or.inl rfl, ha⟩
        · exact ⟨Or.inr hx, fun hmem => hns (Or.inr hmem)⟩
      · rintro ⟨heq | hx, hns⟩
        · exact Or.inl heq
        · by_cases hxa : x = a
          · exact Or.inl hxa
          · exact Or.inr ⟨hx, fun hmem => hmem.elim hxa hns⟩

theorem nodup_dedupFirst (l : List Str) :
    ∀ seen, (dedupFirst seen l).Nodup := by
  induction l with
  | nil => intro seen; simp [dedupFirst]
  | cons a rest ih =>
    intro seen
    unfold dedupFirst
    by_cases ha : a ∈ seen
    · rw [if_pos ha]; exact ih seen
    · rw [if_neg ha]
      refine List.Nodup.cons ?_ (ih (a :: seen))
      intro hmem
      have := (mem_dedupFirst rest (a :: seen) a).mp hmem
      exact this.2 (List.mem_cons_self a seen)

theorem mem_sortStrs (l : List Str) (x : Str) : x ∈ sortStrs l ↔ x ∈ l :=
  (List.perm_insertionSort (· ≤ ·) l).mem_iff

theorem sorted_sortStrs (l : List Str) : (sortStrs l).Sorted (· ≤ ·) :=
  List.sorted_insertionSort (· ≤ ·) l

theorem nodup_sortStrs (l : List Str) (h : l.Nodup) : (sortStrs l).Nodup :=
  ((List.perm_insertionSort (· ≤ ·) l).symm.nodup_iff).mp h

theorem sorted_mergeAliases (a b : List Str) :
    (mergeAliases a b).Sorted (· ≤ ·) :=
  sorted_sortStrs _

theorem nodup_mergeAliases (a b : List Str) : (mergeAliases a b).Nodup :=
  nodup_sortStrs _ (nodup_dedupFirst _ [])

theorem mem_mergeAliases (a b : List Str) (x : Str) :
    x ∈ mergeAliases a b ↔ x ∈ a.map lcStr ∨ x ∈ b := by
  unfold mergeAliases
  rw [mem_sortStrs, mem_dedupFirst]
  simp [List.mem_append]

/-!
Alias extractor (`extractAliases`, main.js lines 86-108).

The regular expression is scanned with the semantics of a JavaScript
backtracking engine.  The pattern is two open brackets, a lazy first
capture (any characters except a line break), an optional group of a pipe
followed by a lazy second capture, and two close brackets.  `findCap2`
models the lazy second capture up to the first two consecutive close
brackets; `tryBody` models the body after the two open brackets,
extending the lazy first capture one character at a time and at each
length trying the pipe branch before the immediate close branch;
`scanFrom` models the global scan that retries from the next position on
failure and continues after each match.
-/

def findCap2 : Str → Option (Str × Str)
  | ']' :: ']' :: rest => some ([], rest)
  | c :: rest =>
      if c = '\n' then none
      else
        match findCap2 rest with
        | some (a, r) => some (c :: a, r)
        | none => none
  | [] => none

def tryBody (acc : Str) : Str → Option (Str × Option Str × Str)
  | '|' :: rest =>
      match findCap2 rest with
      | some (a, r) => some (acc.reverse, some a, r)
      | none => tryBody ('|' :: acc) rest
  | ']' :: ']' :: rest => some (acc.reverse, none, rest)
  | c :: rest => if c = '\n' then none else tryBody (c :: acc) rest
  | [] => none

def scanFrom : Nat → Str → List (Str × Option Str)
  | 0, _ => []
  | _ + 1, [] => []
  | fuel + 1, '[' :: '[' :: rest =>
      match tryBody [] rest with
      | some (t, a, r) => (t, a) :: scanFrom fuel r
      | none => scanFrom fuel ('[' :: rest)
  | fuel + 1, _ :: rest => scanFrom fuel rest

/-- Model of inserting one lower-cased alias into the alias map under a
target key: the per-target `Set` keeps insertion order and ignores
duplicates, and a fresh key is appended at the end of the object. -/
def addEntry : List (Str × List Str) → Str → Str → List (Str × List Str)
  | [], t, a => [(t, [a])]
  | (t', vs) :: rest, t, a =>
      if t' = t then (t', if a ∈ vs then vs else vs ++ [a]) :: rest
      else (t', vs) :: addEntry rest t a

/-- The match-processing loop of `extractAliases` (main.js lines 91-100):
trim both captures, skip the occurrence when the alias is absent or empty
or the target is empty, otherwise insert the lower-cased alias. -/
def buildMap : List (Str × Option Str) → List (Str × List Str) → List (Str × List Str)
  | [], m => m
  | (_, none) :: rest, m => buildMap rest m
  | (t, some av) :: rest, m =>
      if jsTrim av ≠ [] ∧ jsTrim t ≠ [] then
        buildMap rest (addEntry m (jsTrim t) (lcStr (jsTrim av)))
      else buildMap rest m

/-- `extractAliases` (main.js lines 86-108): scan the content for link
constructs, build the alias map, then convert each per-target set to a
sorted array. -/
def extractAliases (content : Str) : List (Str × List Str) :=
  (buildMap (scanFrom content.length content) []).map (fun p => (p.1, sortStrs p.2))

example : extractAliases (chars "[[A|b]] [[A|B]]") = [(chars "A", [chars "b"])] := by decide
example : extractAliases (chars "[[C]]") = [] := by decide
example : extractAliases (chars "") = [] := by decide
example : extractAliases (chars "xx [[Project Plan|plan]] y [[Project Plan|Roadmap]]") =
    [(chars "Project Plan", [chars "plan", chars "roadmap"])] := by decide
example : extractAliases (chars "[[A\n|b]]") = [] := by decide
example : extractAliases (chars "[[a|b|c]]") = [(chars "a", [chars "b|c"])] := by decide

/-!
Frontmatter model (`updateFrontmatter`, main.js lines 110-125).

A frontmatter object is an association list from field names to values.
The callback passed to `processFrontMatter` reads the aliases field
(treating an absent field as the empty array), computes the merge, and
assigns the result back to the aliases field, touching nothing else.
-/

inductive FmVal where
  | strs : List Str → FmVal
  | num : Nat → FmVal
  deriving DecidableEq

def lookupKey : List (Str × FmVal) → Str → Option FmVal
  | [], _ => none
  | (k', v) :: rest, k => if k' = k then some v else lookupKey rest k

/-- JavaScript object assignment: overwrite the first binding of the key
in place, or append a fresh binding at the end. -/
def setKey : List (Str × FmVal) → Str → FmVal → List (Str × FmVal)
  | [], k, v => [(k, v)]
  | (k', v') :: rest, k, v =>
      if k' = k then (k, v) :: rest else (k', v') :: setKey rest k v

/-- Reading `frontmatter['aliases'] || []` when the field holds an array
of strings (an absent field yields the empty array). -/
def getAliases (fm : List (Str × FmVal)) : List Str :=
  match lookupKey fm (chars "aliases") with
  | some (FmVal.strs l) => l
  | _ => []

/-- The frontmatter transformation applied by `updateFrontmatter`
(main.js lines 112-120). -/
def updateFrontmatter (fm : List (Str × FmVal)) (aliases : List Str) :
    List (Str × FmVal) :=
  setKey fm (chars "aliases") (FmVal.strs (mergeAliases (getAliases fm) aliases))

/-!
Document pipeline (`processFile`, main.js lines 54-84).

The pipeline's interactions with the host are recorded as a list of
effects.  The environment supplies the outcome of each host call: the
compiled anchored name test, the content returned by the read, link
resolution, the per-path frontmatter store and whether the metadata
write succeeds.  A failing metadata write makes `updateFrontmatter`
rethrow, which aborts the `for` loop; the surrounding catch then emits
one error notice for the invocation.
-/

structure ResolvedFile where
  path : Str
  ext : Str
  deriving DecidableEq

inductive Effect where
  | readContent
  | write : Str → List Str → Effect
  | writeFail : Str → Effect
  | skipLog : Str → Effect
  | updateNotice : Nat → Effect
  | errorNotice
  deriving DecidableEq

structure PipeEnv where
  matchName : Str → Bool
  content : Str
  resolve : Str → Option ResolvedFile
  fm : Str → List (Str × FmVal)
  writeOk : Str → Bool
  showNotice : Bool

/-- The `for` loop over `Object.entries(aliasMap)` (main.js lines 67-75):
returns the effects, the count of documents updated, and whether the loop
was aborted by a rethrown metadata-write error. -/
def processTargets (env : PipeEnv) :
    List (Str × List Str) → List Effect × Nat × Bool
  | [] => ([], 0, false)
  | (t, as) :: rest =>
      match env.resolve t with
      | some rf =>
          if rf.ext = chars "md" then
            if env.writeOk rf.path then
              let p := processTargets env rest
              (Effect.write rf.path
                  (mergeAliases (getAliases (env.fm rf.path)) as) :: p.1,
                p.2.1 + 1, p.2.2)
            else ([Effect.writeFail rf.path], 0, true)
          else
            let p := processTargets env rest
            (Effect.skipLog t :: p.1, p.2.1, p.2.2)
      | none =>
          let p := processTargets env rest
          (Effect.skipLog t :: p.1, p.2.1, p.2.2)

/-- `processFile` (main.js lines 54-84) as an effect trace: the anchored
name check gates everything; on a match the content is read and the alias
map processed; a rethrown write error is caught and reported with one
error notice; otherwise a summary notice is shown when at least one
document was updated and notices are enabled. -/
def processFile (env : PipeEnv) (basename : Str) : List Effect :=
  if env.matchName basename = false then []
  else
    let am := extractAliases env.content
    if am.isEmpty then [Effect.readContent]
    else
      let p := processTargets env am
      if p.2.2 then Effect.readContent :: p.1 ++ [Effect.errorNotice]
      else
        Effect.readContent :: p.1 ++
          (if 0 < p.2.1 ∧ env.showNotice then [Effect.updateNotice p.2.1] else [])

/-- Model of the compiled anchored default pattern: the regular
expression of four digits, a hyphen, two digits, a hyphen and two digits,
wrapped in start and end anchors, tested against the full base name. -/
def matchesDatePattern : Str → Bool
  | [a, b, c, d, '-', e, f, '-', g, h] =>
      a.isDigit && b.isDigit && c.isDigit && d.isDigit &&
        e.isDigit && f.isDigit && g.isDigit && h.isDigit
  | _ => false

example : matchesDatePattern (chars "2024-01-01") = true := by decide
example : matchesDatePattern (chars "notes") = false := by decide
example : matchesDatePattern (chars "x2024-01-01") = false := by decide

/-!
Change scheduler (`debounce`, main.js lines 4-10, and the registration in
`onload`, lines 36-44).

One `debounce` wrapper is registered for every content-modify event, so
there is a single shared `timeout` variable.  A modify event clears any
pending timer and arms a new one for the event's document, to fire after
the wait.  When the timer fires, the wrapped handler re-checks that the
document has the qualifying extension and is still the host's active
document; on failure nothing is invoked and nothing is queued.  Traces
are lists of timestamped commands in nondecreasing time order; a pending
timer whose fire time has been reached fires before the next command is
handled.
-/

inductive SCmd where
  | modify : Nat → SCmd
  | setActive : Option Nat → SCmd
  deriving DecidableEq

structure SchedState where
  pending : Option (Nat × Nat)
  active : Option Nat
  deriving DecidableEq

/-- The re-check inside the debounced handler (main.js line 37): the file
has the markdown extension and is still the workspace's active file. -/
def fireGate (isMd : Nat → Bool) (active : Option Nat) (f : Nat) : Bool :=
  isMd f && active == some f

/-- Fire a pending timer whose fire time is at or before the given time:
the timer is consumed, and an invocation is produced only when the gate
passes. -/
def fireBefore (isMd : Nat → Bool) (st : SchedState) (t : Nat) :
    List (Nat × Nat) × SchedState :=
  match st.pending with
  | some (ft, f) =>
      if ft ≤ t then
        (if fireGate isMd st.active f then [(ft, f)] else [],
          { pending := none, active := st.active })
      else ([], st)
  | none => ([], st)

/-- Handle one command: a modify event clears any pending timer and arms
the shared timer for this document (main.js lines 7-8); an active-file
change updates the workspace state. -/
def applyCmd (w : Nat) (st : SchedState) (t : Nat) : SCmd → SchedState
  | SCmd.modify f => { pending := some (t + w, f), active := st.active }
  | SCmd.setActive a => { pending := st.pending, active := a }

/-- Run the scheduler over a time-ordered trace, returning the pipeline
invocations as timestamped document ids. -/
def runSched (w : Nat) (isMd : Nat → Bool) (st : SchedState) :
    List (Nat × SCmd) → List (Nat × Nat)
  | [] =>
      match st.pending with
      | some (ft, f) => if fireGate isMd st.active f then [(ft, f)] else []
      | none => []
  | (t, c) :: rest =>
      let p := fireBefore isMd st t
      p.1 ++ runSched w isMd (applyCmd w p.2 t c) rest

/-!
Settings lifecycle (main.js lines 12-17, 127-147 and 188-203).

`loadSettings` merges the stored data over the defaults and clamps the
debounce timeout into the range 1000 to 5000 (a falsy stored value falls
back to the default 1000).  `onload` then builds the debounced handler,
passing the numeric value `this.settings.debounceTimeout` to `debounce`,
which closes over that number: the handler's wait is fixed at load.  The
settings-tab change handler for the timeout field validates the parsed
number, rejects anything outside 1000 to 5000, and otherwise stores the
new value in the settings object only.
-/

def clampTimeout (x : Nat) : Nat :=
  max 1000 (min 5000 (if x = 0 then 1000 else x))

/-- The debounce-timeout part of `loadSettings` (main.js lines 127-138):
stored data merged over the default, then clamped. -/
def loadTimeout (data : Option Nat) : Nat :=
  clampTimeout (data.getD 1000)

structure PluginState where
  settingTimeout : Nat
  handlerWait : Nat
  deriving DecidableEq

/-- `onload` (main.js lines 22-52): load settings, then register the
debounced modify handler with the wait taken from the settings at that
moment. -/
def onloadPlugin (data : Option Nat) : PluginState :=
  { settingTimeout := loadTimeout data, handlerWait := loadTimeout data }

/-- The settings-tab change handler for the debounce timeout (main.js
lines 194-202): an out-of-range value is rejected with a notice; an
in-range value is stored in the settings object. -/
def changeTimeoutSetting (p : PluginState) (v : Nat) : PluginState :=
  if v < 1000 ∨ 5000 < v then p
  else { settingTimeout := v, handlerWait := p.handlerWait }

def applyTimeoutChanges (p : PluginState) (vs : List Nat) : PluginState :=
  vs.foldl changeTimeoutSetting p

/-!
Invariants of the extractor: every capture is free of line breaks (the
dot of the pattern never matches one), and the finished alias map holds
lower-cased, deduplicated, sorted alias lists.
-/

def noNewline (s : Str) : Prop := '\n' ∉ s

theorem findCap2_noNL : ∀ s a r, findCap2 s = some (a, r) → noNewline a := by
  intro s
  induction s using findCap2.induct with
  | case1 rest =>
      intro a r h
      simp only [findCap2, Option.some.injEq, Prod.mk.injEq] at h
      rw [← h.1]
      simp [noNewline]
  | case2 rest hg =>
      intro a r h
      simp [findCap2] at h
  | case3 c rest hg hne a0 r0 hrec ih =>
      intro a r h
      simp only [findCap2, hrec, if_neg hne, Option.some.injEq, Prod.mk.injEq] at h
      rw [← h.1]
      intro hmem
      rcases List.mem_cons.mp hmem with heq | hmem2
      · exact hne heq.symm
      · exact ih a0 r0 hrec hmem2
  | case4 c rest hg hne hrec ih =>
      intro a r h
      simp only [findCap2, hrec, if_neg hne] at h
      exact Option.noConfusion h
  | case5 =>
      intro a r h
      simp [findCap2] at h

theorem tryBody_noNL : ∀ acc s t a r, tryBody acc s = some (t, a, r) →
    noNewline acc → noNewline t ∧ ∀ x, a = some x → noNewline x := by
  intro acc s
  induction acc, s using tryBody.induct with
  | case1 acc rest a0 r0 hfind =>
      intro t a r h hacc
      simp only [tryBody, hfind, Option.some.injEq, Prod.mk.injEq] at h
      refine ⟨?_, ?_⟩
      · rw [← h.1]
        intro hmem
        exact hacc (List.mem_reverse.mp hmem)
      · intro x hx
        rw [← h.2.1] at hx
        rw [← Option.some.inj hx]
        exact findCap2_noNL rest a0 r0 hfind
  | case2 acc rest hfind ih =>
      intro t a r h hacc
      simp only [tryBody, hfind] at h
      refine ih t a r h ?_
      intro hmem
      rcases List.mem_cons.mp hmem with heq | hmem2
      · exact absurd heq (by decide)
      · exact hacc hmem2
  | case3 acc rest =>
      intro t a r h hacc
      simp only [tryBody, Option.some.injEq, Prod.mk.injEq] at h
      refine ⟨?_, ?_⟩
      · rw [← h.1]
        intro hmem
        exact hacc (List.mem_reverse.mp hmem)
      · intro x hx
        rw [← h.2.1] at hx
        exact Option.noConfusion hx
  | case4 acc rest hg1 hg2 =>
      intro t a r h hacc
      simp [tryBody] at h
  | case5 acc c rest hg1 hg2 hne ih =>
      intro t a r h hacc
      simp only [tryBody, if_neg hne] at h
      refine ih t a r h ?_
      intro hmem
      rcases List.mem_cons.mp hmem with heq | hmem2
      · exact hne heq.symm
      · exact hacc hmem2
  | case6 acc =>
      intro t a r h hacc
      simp [tryBody] at h

theorem scanFrom_noNL : ∀ fuel s, ∀ p ∈ scanFrom fuel s,
    noNewline p.1 ∧ ∀ x, p.2 = some x → noNewline x := by
  intro fuel s
  induction fuel, s using scanFrom.induct with
  | case1 s =>
      intro p hp
      simp [scanFrom] at hp
  | case2 n =>
      intro p hp
      simp [scanFrom] at hp
  | case3 fuel rest t a r htry ih =>
      intro p hp
      simp only [scanFrom, htry] at hp
      rcases List.mem_cons.mp hp with heq | hmem
      · rw [heq]
        have hbody := tryBody_noNL [] rest t a r htry (by simp [noNewline])
        exact ⟨hbody.1, hbody.2⟩
      · exact ih p hmem
  | case4 fuel rest htry ih =>
      intro p hp
      simp only [scanFrom, htry] at hp
      exact ih p hp
  | case5 fuel c rest hg ih =>
      intro p hp
      simp only [scanFrom] at hp
      exact ih p hp

theorem lcStr_noNL {s : Str} (h : noNewline s) : noNewline (lcStr s) := by
  intro hmem
  unfold lcStr at hmem
  rcases List.mem_map.mp hmem with ⟨c, hc, hlc⟩
  exact lcChar_ne_newline (fun heq => h (heq ▸ hc)) hlc

theorem jsTrim_noNL {s : Str} (h : noNewline s) : noNewline (jsTrim s) :=
  fun hmem => h (jsTrim_subset s hmem)

/-- Invariant of a value stored in the in-progress alias map: it is its
own lower-casing and contains no line break. -/
def goodVal (v : Str) : Prop := lcStr v = v ∧ noNewline v

/-- Invariant of one alias-map entry: the key has no line break, and the
value list is duplicate-free and made of good values. -/
def goodEntry (p : Str × List Str) : Prop :=
  noNewline p.1 ∧ p.2.Nodup ∧ ∀ x ∈ p.2, goodVal x

theorem addEntry_good : ∀ m t a, (∀ p ∈ m, goodEntry p) →
    noNewline t → goodVal a → ∀ p ∈ addEntry m t a, goodEntry p := by
  intro m
  induction m with
  | nil =>
      intro t a _ ht ha p hp
      simp only [addEntry, List.mem_singleton] at hp
      rw [hp]
      refine ⟨ht, List.nodup_singleton a, ?_⟩
      intro x hx
      rw [List.mem_singleton.mp hx]
      exact ha
  | cons q rest ih =>
      intro t a hm ht ha p hp
      obtain ⟨t', vs⟩ := q
      unfold addEntry at hp
      by_cases hk : t' = t
      · rw [if_pos hk] at hp
        rcases List.mem_cons.mp hp with heq | hmem
        · have hq := hm (t', vs) (List.mem_cons_self _ _)
          rw [heq]
          refine ⟨hq.1, ?_, ?_⟩
          · by_cases hav : a ∈ vs
            · rw [if_pos hav]; exact hq.2.1
            · rw [if_neg hav]
              simp [List.nodup_append, hq.2.1, hav]
          · intro x hx
            by_cases hav : a ∈ vs
            · rw [if_pos hav] at hx
              exact hq.2.2 x hx
            · rw [if_neg hav] at hx
              rcases List.mem_append.mp hx with h1 | h2
              · exact hq.2.2 x h1
              · rw [List.mem_singleton.mp h2]
                exact ha
        · exact hm p (List.mem_cons_of_mem _ hmem)
      · rw [if_neg hk] at hp
        rcases List.mem_cons.mp hp with heq | hmem
        · rw [heq]
          exact hm (t', vs) (List.mem_cons_self _ _)
        · exact ih t a (fun q hq => hm q (List.mem_cons_of_mem _ hq)) ht ha p hmem

theorem buildMap_good : ∀ l m,
    (∀ p ∈ l, noNewline p.1 ∧ ∀ x, p.2 = some x → noNewline x) →
    (∀ p ∈ m, goodEntry p) → ∀ p ∈ buildMap l m, goodEntry p := by
  intro l
  induction l with
  | nil =>
      intro m _ hm p hp
      simp only [buildMap] at hp
      exact hm p hp
  | cons q rest ih =>
      intro m hl hm p hp
      obtain ⟨t, a⟩ := q
      have hq := hl (t, a) (List.mem_cons_self _ _)
      have hrest : ∀ p ∈ rest, noNewline p.1 ∧ ∀ x, p.2 = some x → noNewline x :=
        fun p hpmem => hl p (List.mem_cons_of_mem _ hpmem)
      cases a with
      | none =>
          simp only [buildMap] at hp
          exact ih m hrest hm p hp
      | some av =>
          simp only [buildMap] at hp
          by_cases hcond : jsTrim av ≠ [] ∧ jsTrim t ≠ []
          · rw [if_pos hcond] at hp
            refine ih _ hrest ?_ p hp
            refine addEntry_good m (jsTrim t) (lcStr (jsTrim av)) hm ?_ ?_
            · exact jsTrim_noNL hq.1
            · exact ⟨lcStr_idem _, lcStr_noNL (jsTrim_noNL (hq.2 av rfl))⟩
          · rw [if_neg hcond] at hp
            exact ih m hrest hm p hp

/-- Master invariant of `extractAliases`: every entry has a key without
line breaks and a sorted, duplicate-free list of values, each of which is
its own lower-casing and has no line break. -/
theorem extractAliases_good : ∀ content, ∀ p ∈ extractAliases content,
    noNewline p.1 ∧ p.2.Sorted (· ≤ ·) ∧ p.2.Nodup ∧
      ∀ x ∈ p.2, lcStr x = x ∧ noNewline x := by
  intro content p hp
  unfold extractAliases at hp
  rcases List.mem_map.mp hp with ⟨q, hq, hqp⟩
  have hgood := buildMap_good (scanFrom content.length content) []
    (fun r hr => scanFrom_noNL content.length content r hr)
    (by intro r hr; simp at hr) q hq
  rw [← hqp]
  refine ⟨hgood.1, sorted_sortStrs q.2, nodup_sortStrs q.2 hgood.2.1, ?_⟩
  intro x hx
  have hxq := (mem_sortStrs q.2 x).mp hx
  exact ⟨(hgood.2.2 x hxq).1, (hgood.2.2 x hxq).2⟩

/-!
Claims about the merger and the extractor.
-/

/-- C1 counterexample: the merge computation does not lower-case the
incoming aliases, so merging the empty existing list with the incoming
list of capital X and lower-case x keeps both entries instead of
yielding the single lower-case x. -/
theorem c1_counterexample :
    mergeAliases [] [chars "X", chars "x"] ≠ [chars "x"] := by decide

/-- C1 (amended): for every existing and incoming alias list, merge
lower-cases every entry of the existing list only, takes the set union
with the incoming entries as they are, and returns the lexicographically
sorted result with no duplicates; merging the empty list with capital X
and lower-case x yields both, and merging Foo with bar and foo yields
bar and foo. -/
theorem c1_merge_characterization :
    (∀ a b, (mergeAliases a b).Sorted (· ≤ ·) ∧ (mergeAliases a b).Nodup ∧
        ∀ x, x ∈ mergeAliases a b ↔ x ∈ a.map lcStr ∨ x ∈ b)
    ∧ mergeAliases [] [chars "X", chars "x"] = [chars "X", chars "x"]
    ∧ mergeAliases [chars "Foo"] [chars "bar", chars "foo"] =
        [chars "bar", chars "foo"] :=
  ⟨fun a b => ⟨sorted_mergeAliases a b, nodup_mergeAliases a b, mem_mergeAliases a b⟩,
    by decide, by decide⟩

/-- C3 counterexample: with an incoming list containing a capital X,
merging once yields the list with capital X, and merging that result
with the same incoming list again adds the lower-cased x, so merge is
not idempotent in its second argument. -/
theorem c3_counterexample :
    mergeAliases (mergeAliases [] [chars "X"]) [chars "X"] ≠
      mergeAliases [] [chars "X"] := by decide

/-- C3 (amended): for all alias lists a and b in which every entry of b
is already lower-case (as the extractor always produces), merge is
idempotent in its second argument. -/
theorem c3_idempotent_on_lowercase : ∀ a b, (∀ x ∈ b, lcStr x = x) →
    mergeAliases (mergeAliases a b) b = mergeAliases a b := by
  intro a b hb
  have h1 : ∀ x ∈ mergeAliases a b, lcStr x = x := by
    intro x hx
    rcases (mem_mergeAliases a b x).mp hx with hma | hmb
    · rcases List.mem_map.mp hma with ⟨y, _, hxy⟩
      rw [← hxy]
      exact lcStr_idem y
    · exact hb x hmb
  have hmapid : (mergeAliases a b).map lcStr = mergeAliases a b := by
    rw [List.map_congr_left (fun x hx => h1 x hx)]
    exact List.map_id _
  have hmem : ∀ x, x ∈ mergeAliases (mergeAliases a b) b ↔ x ∈ mergeAliases a b := by
    intro x
    rw [mem_mergeAliases, hmapid]
    constructor
    · rintro (h | h)
      · exact h
      · exact (mem_mergeAliases a b x).mpr (Or.inr h)
    · exact Or.inl
  refine List.eq_of_perm_of_sorted ?_ (sorted_mergeAliases _ _) (sorted_mergeAliases _ _)
  exact (List.perm_ext_iff_of_nodup (nodup_mergeAliases _ _) (nodup_mergeAliases _ _)).mpr hmem

/-- Witness for C3 (amended) at a concrete input. -/
theorem c3_idempotent_witness :
    (∀ x ∈ [chars "bar"], lcStr x = x) ∧
      mergeAliases (mergeAliases [chars "Foo"] [chars "bar"]) [chars "bar"] =
        mergeAliases [chars "Foo"] [chars "bar"] :=
  ⟨by decide, c3_idempotent_on_lowercase [chars "Foo"] [chars "bar"] (by decide)⟩

/-- C4 counterexample: a text that contains both constructs of target A
with alias b and alias capital B, and additionally one with alias c,
does not yield the map sending A to the single alias b. -/
theorem c4_counterexample :
    extractAliases (chars "[[A|b]][[A|B]][[A|c]]") ≠
      [(chars "A", [chars "b"])] := by decide

/-- C4 (amended): for every input text, every per-target alias list
produced by the extractor is lower-cased, lexicographically sorted and
free of entries equal under case-insensitive comparison; the text
consisting exactly of the constructs of target A with alias b and with
alias capital B yields the map sending A to the single alias b (a text
containing further alias constructs may yield more). -/
theorem c4_extract_invariants :
    (∀ content, ∀ p ∈ extractAliases content,
      (∀ x ∈ p.2, lcStr x = x) ∧ p.2.Sorted (· ≤ ·) ∧
        p.2.Pairwise (fun x y => lcStr x ≠ lcStr y))
    ∧ extractAliases (chars "[[A|b]] [[A|B]]") = [(chars "A", [chars "b"])] := by
  constructor
  · intro content p hp
    have h := extractAliases_good content p hp
    refine ⟨fun x hx => (h.2.2.2 x hx).1, h.2.1, ?_⟩
    refine List.Pairwise.imp_of_mem ?_ h.2.2.1
    intro x y hx hy hxy heq
    exact hxy (by rw [← (h.2.2.2 x hx).1, ← (h.2.2.2 y hy).1, heq])
  · decide

/-- Witness for C4 at a concrete input. -/
theorem c4_extract_witness :
    ((chars "A", [chars "b"]) ∈ extractAliases (chars "[[A|b]] [[A|B]]")) ∧
      ((∀ x ∈ [chars "b"], lcStr x = x) ∧
        ([chars "b"] : List Str).Sorted (· ≤ ·) ∧
        ([chars "b"] : List Str).Pairwise (fun x y => lcStr x ≠ lcStr y)) :=
  ⟨by decide,
    c4_extract_invariants.1 (chars "[[A|b]] [[A|B]]") (chars "A", [chars "b"]) (by decide)⟩

/-- C8: a double-bracket construct whose target or alias spans a line
break is never extracted: every key and every alias in the result of the
extractor is free of line breaks, and texts whose only construct spans a
line break yield the empty map. -/
theorem c8_no_newline_entries :
    (∀ content, ∀ p ∈ extractAliases content,
      noNewline p.1 ∧ ∀ x ∈ p.2, noNewline x)
    ∧ extractAliases (chars "[[A\n|b]]") = []
    ∧ extractAliases (chars "[[A|b\nc]]") = [] := by
  refine ⟨?_, by decide, by decide⟩
  intro content p hp
  have h := extractAliases_good content p hp
  exact ⟨h.1, fun x hx => (h.2.2.2 x hx).2⟩

/-- Witness for C8 at a concrete input. -/
theorem c8_no_newline_witness :
    ((chars "A", [chars "b"]) ∈ extractAliases (chars "[[A|b]]")) ∧
      (noNewline (chars "A") ∧ ∀ x ∈ [chars "b"], noNewline x) :=
  ⟨by decide, c8_no_newline_entries.1 (chars "[[A|b]]") (chars "A", [chars "b"]) (by decide)⟩

/-!
Claims about the frontmatter update and the document pipeline.
-/

theorem lookupKey_setKey_ne : ∀ fm k v k2, k2 ≠ k →
    lookupKey (setKey fm k v) k2 = lookupKey fm k2 := by
  intro fm
  induction fm with
  | nil =>
      intro k v k2 hne
      simp only [setKey, lookupKey]
      rw [if_neg (fun h => hne h.symm)]
  | cons q rest ih =>
      intro k v k2 hne
      obtain ⟨k', v'⟩ := q
      simp only [setKey]
      by_cases hk : k' = k
      · rw [if_pos hk]
        simp only [lookupKey]
        rw [if_neg (fun h => hne h.symm), if_neg (fun h => hne (hk ▸ h).symm)]
      · rw [if_neg hk]
        simp only [lookupKey]
        by_cases hk2 : k' = k2
        · rw [if_pos hk2, if_pos hk2]
        · rw [if_neg hk2, if_neg hk2]
          exact ih k v k2 hne

theorem lookupKey_setKey_self : ∀ fm k v, lookupKey (setKey fm k v) k = some v := by
  intro fm
  induction fm with
  | nil =>
      intro k v
      simp [setKey, lookupKey]
  | cons q rest ih =>
      intro k v
      obtain ⟨k', v'⟩ := q
      simp only [setKey]
      by_cases hk : k' = k
      · rw [if_pos hk]
        simp [lookupKey]
      · rw [if_neg hk]
        simp only [lookupKey]
        rw [if_neg hk]
        exact ih k v

/-- C9: the metadata update writes the merged list to the aliases field
and leaves the binding of every other frontmatter field unchanged. -/
theorem c9_update_frame :
    (∀ fm aliases k, k ≠ chars "aliases" →
      lookupKey (updateFrontmatter fm aliases) k = lookupKey fm k)
    ∧ ∀ fm aliases, lookupKey (updateFrontmatter fm aliases) (chars "aliases") =
        some (FmVal.strs (mergeAliases (getAliases fm) aliases)) := by
  constructor
  · intro fm aliases k hk
    unfold updateFrontmatter
    exact lookupKey_setKey_ne fm (chars "aliases") _ k hk
  · intro fm aliases
    unfold updateFrontmatter
    exact lookupKey_setKey_self fm (chars "aliases") _

/-- Witness for C9 at a concrete frontmatter object. -/
theorem c9_update_frame_witness :
    (chars "title" ≠ chars "aliases") ∧
      lookupKey (updateFrontmatter [(chars "title", FmVal.num 7)] [chars "x"])
          (chars "title") =
        lookupKey [(chars "title", FmVal.num 7)] (chars "title") :=
  ⟨by decide,
    c9_update_frame.1 [(chars "title", FmVal.num 7)] [chars "x"] (chars "title") (by decide)⟩

/-- C5: the anchored name test gates the whole pipeline: when the base
name fails the test the pipeline produces no effect at all (nothing is
read and nothing is written); when it passes, the content read happens;
with the default date pattern, the base name notes produces no effect. -/
theorem c5_pattern_gate :
    (∀ env basename, env.matchName basename = false → processFile env basename = [])
    ∧ (∀ env basename, env.matchName basename = true →
        ∃ es, processFile env basename = Effect.readContent :: es)
    ∧ ∀ env, env.matchName = matchesDatePattern →
        processFile env (chars "notes") = [] := by
  refine ⟨?_, ?_, ?_⟩
  · intro env basename h
    simp [processFile, h]
  · intro env basename h
    unfold processFile
    rw [h, if_neg (by simp)]
    dsimp only
    split_ifs <;> exact ⟨_, rfl⟩
  · intro env h
    have hm : env.matchName (chars "notes") = false := by rw [h]; decide
    simp [processFile, hm]

/-- A concrete pipeline environment for the gating scenario. -/
def envNotes : PipeEnv :=
  { matchName := matchesDatePattern
  , content := chars ""
  , resolve := fun _ => none
  , fm := fun _ => []
  , writeOk := fun _ => true
  , showNotice := true }

/-- Witness for C5 at a concrete environment. -/
theorem c5_pattern_gate_witness :
    (envNotes.matchName (chars "notes") = false ∧
      processFile envNotes (chars "notes") = []) ∧
    (envNotes.matchName (chars "2024-01-01") = true ∧
      ∃ es, processFile envNotes (chars "2024-01-01") = Effect.readContent :: es) :=
  ⟨⟨by decide, c5_pattern_gate.1 envNotes (chars "notes") (by decide)⟩,
    ⟨by decide, c5_pattern_gate.2.1 envNotes (chars "2024-01-01") (by decide)⟩⟩

/-- C2 (amended): a metadata-write failure on one target aborts the
processing of all remaining targets of the same alias map (the loop
result is independent of the remaining entries), while a resolution
miss only skips its own target and processing continues. -/
theorem c2_write_failure_aborts :
    (∀ env t as rest rf, env.resolve t = some rf → rf.ext = chars "md" →
      env.writeOk rf.path = false →
      processTargets env ((t, as) :: rest) = ([Effect.writeFail rf.path], 0, true))
    ∧ ∀ env t as rest, env.resolve t = none →
      processTargets env ((t, as) :: rest) =
        (Effect.skipLog t :: (processTargets env rest).1,
          (processTargets env rest).2.1, (processTargets env rest).2.2) := by
  constructor
  · intro env t as rest rf hres hext hwr
    simp [processTargets, hres, hext, hwr]
  · intro env t as rest hres
    simp [processTargets, hres]

/-- A concrete environment in which the first target's metadata write
fails while the second target resolves and is writable. -/
def envTwoTargets : PipeEnv :=
  { matchName := fun _ => true
  , content := chars "[[T1|a]][[T2|b]]"
  , resolve := fun t => some { path := t, ext := chars "md" }
  , fm := fun _ => []
  , writeOk := fun p => !(p == chars "T1")
  , showNotice := true }

/-- C2 counterexample: in the two-target environment the write failure
on the first target leaves the second resolved target without its merge
and metadata write; the invocation ends with one error notice. -/
theorem c2_counterexample :
    processFile envTwoTargets (chars "2024-01-01") =
        [Effect.readContent, Effect.writeFail (chars "T1"), Effect.errorNotice] ∧
      Effect.write (chars "T2") (mergeAliases [] [chars "b"]) ∉
        processFile envTwoTargets (chars "2024-01-01") := by
  constructor
  · decide
  · decide

/-- Witness for C2 (amended) at a concrete input. -/
theorem c2_write_failure_witness :
    (envTwoTargets.resolve (chars "T1") =
        some { path := chars "T1", ext := chars "md" } ∧
      envTwoTargets.writeOk (chars "T1") = false) ∧
      processTargets envTwoTargets [(chars "T1", [chars "a"]), (chars "T2", [chars "b"])] =
        ([Effect.writeFail (chars "T1")], 0, true) :=
  ⟨⟨by decide, by decide⟩,
    c2_write_failure_aborts.1 envTwoTargets (chars "T1") [chars "a"]
      [(chars "T2", [chars "b"])] { path := chars "T1", ext := chars "md" }
      (by decide) (by decide) (by decide)⟩

/-!
Claims about the change scheduler and the settings lifecycle.
-/

/-- C6: a content-modify event always supersedes any pending timer,
whatever document armed it, re-arming the single shared timer for the
new event; consequently two modify events for the same active markdown
document arriving 200 milliseconds apart with a 1000 millisecond wait
produce exactly one invocation, 1000 milliseconds after the second
event. -/
theorem c6_debounce_single_timer :
    (∀ w isMd ft g act t f rest, t < ft →
      runSched w isMd { pending := some (ft, g), active := act }
          ((t, SCmd.modify f) :: rest) =
        runSched w isMd { pending := some (t + w, f), active := act } rest)
    ∧ runSched 1000 (fun _ => true) { pending := none, active := some 1 }
        [(0, SCmd.modify 1), (200, SCmd.modify 1)] = [(1200, 1)] := by
  constructor
  · intro w isMd ft g act t f rest hlt
    have hn : ¬(ft ≤ t) := Nat.not_le.mpr hlt
    simp [runSched, fireBefore, applyCmd, hn]
  · decide

/-- Witness for C6 at a concrete input. -/
theorem c6_debounce_witness :
    (200 < 1000 : Prop) ∧
      runSched 1000 (fun _ => true) { pending := some (1000, 1), active := some 1 }
          [(200, SCmd.modify 1)] =
        runSched 1000 (fun _ => true) { pending := some (1200, 1), active := some 1 } [] :=
  ⟨by decide,
    c6_debounce_single_timer.1 1000 (fun _ => true) 1000 1 (some 1) 200 1 [] (by decide)⟩

/-- C7: when the timer fires, the invocation happens only if the gate
(markdown extension and still the active document) passes; on failure the
invocation is skipped silently, nothing is queued and nothing is retried
(the run continues exactly as if no timer had been pending), so a change
of active document before the fire time suppresses the invocation. -/
theorem c7_fire_time_gate :
    (∀ w isMd ft f act rest t c, ft ≤ t → fireGate isMd act f = false →
      runSched w isMd { pending := some (ft, f), active := act } ((t, c) :: rest) =
        runSched w isMd { pending := none, active := act } ((t, c) :: rest))
    ∧ (∀ w isMd ft f act, fireGate isMd act f = false →
      runSched w isMd { pending := some (ft, f), active := act } [] = [])
    ∧ runSched 1000 (fun _ => true) { pending := none, active := some 1 }
        [(0, SCmd.modify 1), (200, SCmd.setActive (some 2))] = [] := by
  refine ⟨?_, ?_, by decide⟩
  · intro w isMd ft f act rest t c hle hgate
    simp [runSched, fireBefore, hle, hgate]
  · intro w isMd ft f act hgate
    simp [runSched, hgate]

/-- Witness for C7 at a concrete input. -/
theorem c7_fire_time_gate_witness :
    ((1000 ≤ 1500 : Prop) ∧ fireGate (fun _ => true) (some 2) 1 = false) ∧
      runSched 1000 (fun _ => true) { pending := some (1000, 1), active := some 2 }
          [(1500, SCmd.modify 3)] =
        runSched 1000 (fun _ => true) { pending := none, active := some 2 }
          [(1500, SCmd.modify 3)] :=
  ⟨⟨by decide, by decide⟩,
    c7_fire_time_gate.1 1000 (fun _ => true) 1000 1 (some 2) [] 1500 (SCmd.modify 3)
      (by decide) (by decide)⟩

theorem changeTimeout_handlerWait (p : PluginState) (v : Nat) :
    (changeTimeoutSetting p v).handlerWait = p.handlerWait := by
  unfold changeTimeoutSetting
  split_ifs <;> rfl

theorem applyTimeout_handlerWait : ∀ vs p,
    (applyTimeoutChanges p vs).handlerWait = p.handlerWait := by
  intro vs
  induction vs with
  | nil => intro p; rfl
  | cons v rest ih =>
      intro p
      unfold applyTimeoutChanges at ih ⊢
      simp only [List.foldl_cons]
      rw [ih (changeTimeoutSetting p v), changeTimeout_handlerWait]

/-- C10: the wait of the registered modify handler is the debounce
timeout loaded at plugin start; later settings changes alter the stored
setting but never the handler's wait, so the scheduler behaves exactly
as with the load-time wait; concretely, loading defaults and then
setting 2000 leaves the handler wait at 1000. -/
theorem c10_wait_fixed_at_load :
    (∀ data vs, (applyTimeoutChanges (onloadPlugin data) vs).handlerWait =
        (onloadPlugin data).handlerWait)
    ∧ (∀ data vs isMd st trace,
        runSched (applyTimeoutChanges (onloadPlugin data) vs).handlerWait isMd st trace =
          runSched (onloadPlugin data).handlerWait isMd st trace)
    ∧ applyTimeoutChanges (onloadPlugin none) [2000] =
        { settingTimeout := 2000, handlerWait := 1000 } := by
  refine ⟨fun data vs => applyTimeout_handlerWait vs _, ?_, by decide⟩
  intro data vs isMd st trace
  rw [applyTimeout_handlerWait]
